import Mathlib

/-!
Verification development for the multi-container drag-and-drop engine of the
spellclash client (`src/draggables/DragManager.tsx`).

The TypeScript component is shallowly embedded: JavaScript arrays of item
identifiers become Lean lists, the `Items` record (an object mapping container
identifiers to arrays of item identifiers) becomes an association list in key
insertion order, and the four `DndContext` event handlers (`onDragStart`,
`onDragOver`, `onDragEnd`, `onDragCancel`) become pure functions on an explicit
state record mirroring the component's React state (`itemList`, `activeId`,
`clonedItems`, `recentlyMovedToNewContainer`).

JavaScript array indexing that can produce `undefined` (for example
`array.splice(from, 1)[0]` with an out-of-range index, as reachable through
dnd-kit's `arrayMove`) is modelled by a dedicated value type `JsVal` with an
explicit `undef` constructor, so that out-of-range accesses are represented
faithfully instead of being clamped away.
-/

namespace Spellclash

/-- A JavaScript value stored in a container's item array: a string identifier
or `undefined` (which JS array operations can inject on out-of-range access). -/
inductive JsVal where
  | str : String → JsVal
  | undef : JsVal
deriving DecidableEq, Repr

/-- The Registry: `Record<ContainerId, ItemId[]>` as an association list in key
insertion order (JavaScript object keys are unique and iterate in insertion
order). -/
abbrev Items := List (String × List JsVal)

/-- Key membership test, JS `key in items`. -/
def hasKey (items : Items) (k : String) : Bool :=
  items.any (fun e => decide (e.1 = k))

/-- The list of container keys in iteration order, JS `Object.keys(items)`. -/
def keysOf (items : Items) : List String :=
  items.map (fun e => e.1)

/-- Value lookup `items[k]`.  Every call site in the source indexes with a key
previously confirmed present (via `findContainerId` or the `in` operator), so
the `[]` default of the absent case is never observable. -/
def getList (items : Items) (k : String) : List JsVal :=
  ((items.find? (fun e => decide (e.1 = k))).map (fun e => e.2)).getD []

/-- Update of an existing key, JS `{ ...items, [k]: v }`.  Spreading an object
and overriding an existing key replaces its value and keeps the key order; all
call sites update keys returned by `findContainerId`, which are present. -/
def setKey (items : Items) (k : String) (v : List JsVal) : Items :=
  items.map (fun e => if e.1 = k then (k, v) else e)

/-- Multiset union of all container sequences of the Registry. -/
def registryUnion (items : Items) : Multiset JsVal :=
  items.foldr (fun e acc => (e.2 : Multiset JsVal) + acc) 0

/-- JS index normalization shared by `Array.prototype.slice` and
`Array.prototype.splice`: a negative index counts from the end (clamped at 0),
an index past the end is clamped to the length. -/
def jsIdx (len : Nat) (i : Int) : Nat :=
  if i < 0 then ((len : Int) + i).toNat else min i.toNat len

/-- JS `l[i]`: `undefined` outside the index range. -/
def jsGet (l : List JsVal) (i : Int) : JsVal :=
  if i < 0 then JsVal.undef else l.getD i.toNat JsVal.undef

/-- JS `l.slice(a, b)`. -/
def jsSlice (l : List JsVal) (a b : Int) : List JsVal :=
  (l.take (jsIdx l.length b)).drop (jsIdx l.length a)

/-- JS `l.indexOf(v)`: index of the first occurrence, `-1` if absent. -/
def listIndexOf (l : List JsVal) (v : JsVal) : Int :=
  match l with
  | [] => -1
  | x :: xs =>
    if x = v then 0
    else
      let r := listIndexOf xs v
      if r < 0 then -1 else r + 1

/-- Modelled from the spec: the `arrayMove` helper of the external dnd-kit
library used by the drag-end handler (spec section 4.1 `reorder`, section 8
same-container reorder).  It follows the JS implementation
`newArray.splice(to < 0 ? newArray.length + to : to, 0, newArray.splice(from, 1)[0])`:
the destination offset is computed against the original length before the
element is removed, the inner splice yields `undefined` when `from` is out of
range, and both splice positions use JS index normalization. -/
def arrayMove (l : List JsVal) (i j : Int) : List JsVal :=
  let toRaw : Int := if j < 0 then (l.length : Int) + j else j
  let f : Nat := jsIdx l.length i
  let removed : JsVal := if f < l.length then jsGet l (f : Int) else JsVal.undef
  let rest : List JsVal := if f < l.length then l.take f ++ l.drop (f + 1) else l
  let insAt : Nat := jsIdx rest.length toRaw
  rest.take insAt ++ removed :: rest.drop insAt

/-- Container resolution (`findContainerId` in the source): an identifier that
is itself a Registry key resolves to itself, otherwise to the first key whose
sequence includes it. -/
def findContainerId (items : Items) (id : String) : Option String :=
  if hasKey items id then some id
  else (items.find? (fun e => decide (JsVal.str id ∈ e.2))).map (fun e => e.1)

/-- The component state mutated by the gesture handlers: `itemList` (the
Registry, `useState`), `activeId` (`useState`), `clonedItems` (the pre-drag
snapshot, `useState`), and the `recentlyMovedToNewContainer` ref. -/
structure DragState where
  itemList : Items
  activeId : Option String
  clonedItems : Option Items
  recentlyMoved : Bool
deriving DecidableEq, Repr

/-- The component's initial state: `itemList` from the `items` prop, no active
drag, no snapshot, settled. -/
def initState (items : Items) : DragState :=
  { itemList := items, activeId := none, clonedItems := none, recentlyMoved := false }

/-- A droppable rectangle (`top`, `left`, `width`, `height`), as read from
`over.rect` and `active.rect.current.translated`. -/
structure Rect where
  top : Int
  left : Int
  width : Int
  height : Int
deriving DecidableEq, Repr

/-- The `onDragStart` handler: `setActiveId(toItemId(active.id));
setClonedItems(itemList);`.  No precondition is checked. -/
def onDragStart (s : DragState) (activeId : String) : DragState :=
  { s with activeId := some activeId, clonedItems := some s.itemList }

/-- The `onDragCancel` handler: restore `itemList` from `clonedItems` when a
snapshot exists, then clear `activeId` and `clonedItems`. -/
def onDragCancel (s : DragState) : DragState :=
  let s1 :=
    match s.clonedItems with
    | some c => { s with itemList := c }
    | none => s
  { s1 with activeId := none, clonedItems := none }

/-- The `isBelowOverItem` test of `onDragOver`: the dragged rect's translated
top edge lies strictly below the matched rect's bottom edge
(`over.rect.top + over.rect.height`); false when no translated rect is
available. -/
def isBelowOverItem (activeTranslated : Option Rect) (orect : Rect) : Bool :=
  match activeTranslated with
  | some t => decide (t.top > orect.top + orect.height)
  | none => false

/-- The `newIndex` computation of `onDragOver`: for a container target, one
past the target sequence's length (the insertion slices clamp it to the end);
for an item target present in its sequence, the item's position plus the
below-modifier; otherwise one past the length. -/
def dragOverNewIndex (items : Items) (oid : String) (overItems : List JsVal)
    (orect : Rect) (activeTranslated : Option Rect) : Int :=
  if hasKey items oid then (overItems.length : Int) + 1
  else
    let overIndex := listIndexOf overItems (JsVal.str oid)
    let modifier : Int := if isBelowOverItem activeTranslated orect then 1 else 0
    if overIndex ≥ 0 then overIndex + modifier else (overItems.length : Int) + 1

/-- The Registry update performed by `onDragOver` (the body of its
`setItemList` call), or `none` on each early-return path: `over` resolving to
no container, the active id resolving to no container, or equal containers.
The caller `onDragOver` handles the `overId == null` and
`active.id in itemList` guards. -/
def dragOverUpdate (items : Items) (activeId oid : String) (orect : Rect)
    (activeTranslated : Option Rect) : Option Items :=
  match findContainerId items oid, findContainerId items activeId with
  | some overContainer, some activeContainer =>
    if activeContainer ≠ overContainer then
      let activeItems := getList items activeContainer
      let overItems := getList items overContainer
      let activeIndex := listIndexOf activeItems (JsVal.str activeId)
      let newIndex : Int := dragOverNewIndex items oid overItems orect activeTranslated
      some (setKey
        (setKey items activeContainer
          (activeItems.filter (fun item => decide (item ≠ JsVal.str activeId))))
        overContainer
        (jsSlice overItems 0 newIndex ++
          jsGet activeItems activeIndex :: jsSlice overItems newIndex (overItems.length : Int)))
    else none
  | _, _ => none

/-- The `onDragOver` handler.  `over` carries `over.id` and `over.rect`;
`activeTranslated` is `active.rect.current.translated` (nullable).  Returns
immediately when `over` is null or the active id is a container key; otherwise
applies the optimistic cross-container move and sets the
`recentlyMovedToNewContainer` ref. -/
def onDragOver (s : DragState) (activeId : String) (over : Option (String × Rect))
    (activeTranslated : Option Rect) : DragState :=
  match over with
  | none => s
  | some (oid, orect) =>
    if hasKey s.itemList activeId then s
    else
      match dragOverUpdate s.itemList activeId oid orect activeTranslated with
      | some newItems => { s with itemList := newItems, recentlyMoved := true }
      | none => s

/-- The Registry update performed by `onDragEnd` (the body of its `setItemList`
call), or `none` on each path that leaves the Registry unchanged: the active id
resolving to no container, no `over` target, the over id resolving to no
container, or equal indices. -/
def dragEndUpdate (items : Items) (activeId : String)
    (over : Option (String × Rect)) : Option Items :=
  match findContainerId items activeId with
  | none => none
  | some activeContainer =>
    match over with
    | none => none
    | some (oid, _) =>
      match findContainerId items oid with
      | none => none
      | some overContainer =>
        let activeIndex := listIndexOf (getList items activeContainer) (JsVal.str activeId)
        let overIndex := listIndexOf (getList items overContainer) (JsVal.str oid)
        if activeIndex ≠ overIndex then
          some (setKey items overContainer
            (arrayMove (getList items overContainer) activeIndex overIndex))
        else none

/-- The `onDragEnd` handler: apply the final same-container `arrayMove` when a
target resolves to a different index, and clear `activeId`.  Every path sets
`activeId` to null; no path touches `clonedItems`. -/
def onDragEnd (s : DragState) (activeId : String)
    (over : Option (String × Rect)) : DragState :=
  { s with itemList := (dragEndUpdate s.itemList activeId over).getD s.itemList,
           activeId := none }

/-- The `requestAnimationFrame` effect that resets
`recentlyMovedToNewContainer` after a Registry change has been laid out. -/
def onFrame (s : DragState) : DragState :=
  { s with recentlyMoved := false }

/-- Modelled from the spec: the commit callback invocation of the drag-end
handler.  The repository's `PlayArea` passes an
`onMoved(cardId, positionKey, index)` callback to `DragManager`, but the
`DragManager` variant accepting that prop is missing from the provided sources
(the provided `Props` stops at `renderItem`); spec sections 4.3 and 6 specify
one invocation of `(itemId, finalContainer, finalIndex)` per successfully
completed gesture, and section 7 specifies that a resolution failure commits
nothing.  The final index is the item's index in the final container after the
drag-end Registry update. -/
def onDragEndCommit (s : DragState) (activeId : String)
    (over : Option (String × Rect)) : Option (String × String × Int) :=
  match findContainerId s.itemList activeId, over with
  | some _, some (oid, _) =>
    match findContainerId s.itemList oid with
    | some overContainer =>
      some (activeId, overContainer,
        listIndexOf (getList (onDragEnd s activeId over).itemList overContainer)
          (JsVal.str activeId))
    | none => none
  | _, _ => none


/-- A droppable registered with the `DndContext`: its identifier and its
current client rectangle. -/
structure Droppable where
  id : String
  rect : Rect
deriving DecidableEq, Repr

/-- The argument record a dnd-kit collision detection function receives: the
registered droppables, the pointer coordinates and the active draggable's
collision rectangle. -/
structure CollisionArgs where
  droppableContainers : List Droppable
  pointer : Int × Int
  collisionRect : Rect
deriving DecidableEq, Repr

/-- A collision strategy outcome: the returned collision identifiers and the
new value of the `lastOverId` ref. -/
structure StrategyResult where
  collisions : List String
  lastOverId : Option String
deriving DecidableEq, Repr

/-- Modelled from the spec: dnd-kit's `pointerWithin` (section 4.2 step 2,
"strict pointer-within-rectangle collisions" against all drop targets),
keeping the droppables whose rectangle strictly contains the pointer. -/
def pointerWithin (args : CollisionArgs) : List Droppable :=
  args.droppableContainers.filter (fun d =>
    decide (d.rect.left < args.pointer.1 ∧ args.pointer.1 < d.rect.left + d.rect.width ∧
      d.rect.top < args.pointer.2 ∧ args.pointer.2 < d.rect.top + d.rect.height))

/-- Modelled from the spec: dnd-kit's `rectIntersection` (section 4.2 step 2,
"axis-aligned rectangle-intersection tests" against all drop targets), keeping
the droppables whose rectangle meets the active draggable's rectangle. -/
def rectIntersection (args : CollisionArgs) : List Droppable :=
  args.droppableContainers.filter (fun d =>
    decide (args.collisionRect.left < d.rect.left + d.rect.width ∧
      d.rect.left < args.collisionRect.left + args.collisionRect.width ∧
      args.collisionRect.top < d.rect.top + d.rect.height ∧
      d.rect.top < args.collisionRect.top + args.collisionRect.height))

/-- Squared Euclidean distance between the pointer and a rectangle's geometric
center, with both doubled to stay in the integers (order-preserving). -/
def distSq (p : Int × Int) (r : Rect) : Int :=
  (2 * p.1 - (2 * r.left + r.width)) ^ 2 + (2 * p.2 - (2 * r.top + r.height)) ^ 2

/-- Stable insertion for the closest-center ranking: an earlier-registered
candidate stays in front of later candidates at the same distance. -/
def insertByDist (p : Int × Int) (d : Droppable) : List Droppable → List Droppable
  | [] => [d]
  | x :: xs =>
    if distSq p d.rect ≤ distSq p x.rect then d :: x :: xs
    else x :: insertByDist p d xs

/-- Stable sort by center distance (processing candidates in registration
order). -/
def sortByDist (p : Int × Int) : List Droppable → List Droppable
  | [] => []
  | x :: xs => insertByDist p x (sortByDist p xs)

/-- Modelled from the spec: dnd-kit's `closestCenter` (section 4.2,
"closest-center compares Euclidean distance between pointer position and each
candidate rectangle's geometric center; ties favor the earliest-registered
candidate in iteration order"). -/
def closestCenter (args : CollisionArgs) : List Droppable :=
  sortByDist args.pointer args.droppableContainers

/-- The narrowing and caching step of the custom collision strategy (source
lines 99-121) applied to the chosen candidate list: take the first collision;
when it names a container with member items, re-resolve by closest center
among the member rectangles, the container's own rectangle excluded; record
the result in the `lastOverId` cache and return it.  When there is no
candidate at all, synthesize the active id if a cross-container move happened
on the immediately preceding event, otherwise fall back to the cached last
match or to no collision.  The result is `none` exactly when the narrowing
finds no droppable, in which case the source's `toContainerId(overId)` call
throws a `TypeError` (`overId` is `undefined`). -/
def processIntersections (activeId : Option String) (itemList : Items)
    (lastOverId : Option String) (recentlyMoved : Bool) (args : CollisionArgs)
    (intersections : List Droppable) : Option StrategyResult :=
  match intersections.head? with
  | some c =>
    let overId0 := c.id
    let narrowed : Option String :=
      if hasKey itemList overId0 && decide (0 < (getList itemList overId0).length) then
        ((closestCenter { args with droppableContainers :=
          args.droppableContainers.filter (fun d =>
            decide (d.id ≠ overId0) &&
              decide (JsVal.str d.id ∈ getList itemList overId0)) }).head?).map
          (fun d => d.id)
      else some overId0
    match narrowed with
    | some ov => some ⟨[ov], some ov⟩
    | none => none
  | none =>
    let last2 := if recentlyMoved then activeId else lastOverId
    some ⟨(match last2 with | some l => [l] | none => []), last2⟩

/-- The candidate selection of the custom collision strategy for a non-container
active id (source lines 92-98): pointer-within collisions when at least one
exists, otherwise rectangle intersections; then the narrowing step. -/
def collisionMain (activeId : Option String) (itemList : Items)
    (lastOverId : Option String) (recentlyMoved : Bool)
    (args : CollisionArgs) : Option StrategyResult :=
  let pointerIntersections := pointerWithin args
  let intersections :=
    if 0 < pointerIntersections.length then pointerIntersections
    else rectIntersection args
  processIntersections activeId itemList lastOverId recentlyMoved args intersections

/-- The custom `collisionDetectionStrategy` of `DragManager` (source lines
81-135): when the active id is a Registry key (a container dragged as a unit),
resolve by closest center among the container rectangles only, leaving the
cache untouched; otherwise run the candidate selection and narrowing. -/
def collisionDetectionStrategy (activeId : Option String) (itemList : Items)
    (lastOverId : Option String) (recentlyMoved : Bool)
    (args : CollisionArgs) : Option StrategyResult :=
  match activeId with
  | some a =>
    if hasKey itemList a then
      some ⟨(closestCenter { args with droppableContainers :=
        args.droppableContainers.filter (fun d => hasKey itemList d.id) }).map
          (fun d => d.id),
        lastOverId⟩
    else collisionMain (some a) itemList lastOverId recentlyMoved args
  | none => collisionMain none itemList lastOverId recentlyMoved args

/-- Folding a sequence of `over` events (target and translated rect per event)
into the state. -/
def runOvers (s : DragState) (a : String)
    (evs : List (Option (String × Rect) × Option Rect)) : DragState :=
  evs.foldl (fun t e => onDragOver t a e.1 e.2) s

/-! ### Gesture traces -/

/-- Drag gestures as dnd-kit dispatches them to the handlers: `onDragStart`
fires only from an idle state and only for an identifier rendered as a
draggable item (`DraggableItem` instances are created for the members of the
container sequences; `DropTargetContainer` attaches no activation listeners);
`onDragOver`, `onDragEnd` and `onDragCancel` fire only during a session and
carry the session's active id; and the over value handed to `onDragEnd` is the
one processed by the most recent `onDragOver` of the session (dnd-kit fires
`onDragOver` whenever the over target changes, before the drop), or null when
none fired.  The relation's second component tracks that current over value;
`frame` is the `requestAnimationFrame` reset of the settling flag. -/
inductive Reach (init : Items) : DragState → Option (String × Rect) → Prop where
  | start0 : Reach init (initState init) none
  | frame {s : DragState} {co : Option (String × Rect)} :
      Reach init s co → Reach init (onFrame s) co
  | dragStart {s : DragState} {co : Option (String × Rect)} {i : String} :
      Reach init s co → s.activeId = none →
      JsVal.str i ∈ registryUnion s.itemList →
      Reach init (onDragStart s i) none
  | dragOver {s : DragState} {co : Option (String × Rect)}
      {ov : Option (String × Rect)} {a : String} {tr : Option Rect} :
      Reach init s co → s.activeId = some a →
      Reach init (onDragOver s a ov tr) ov
  | dragEnd {s : DragState} {co : Option (String × Rect)} {a : String} :
      Reach init s co → s.activeId = some a →
      Reach init (onDragEnd s a co) none
  | dragCancel {s : DragState} {co : Option (String × Rect)} {a : String} :
      Reach init s co → s.activeId = some a →
      Reach init (onDragCancel s) none

/-- Well-formedness of the `items` prop: unique container keys, no duplicate
item occurrence, and no container key occurring as a member item (the
disjointness the spec leaves open in section 9). -/
def GoodInit (init : Items) : Prop :=
  (keysOf init).Nodup ∧ (registryUnion init).Nodup ∧
    ∀ k ∈ keysOf init, JsVal.str k ∉ registryUnion init


/-! ### Concrete scenario data -/

/-- The cross-container commit scenario's initial Registry
`{A:[1,2,3], B:[4,5]}`. -/
def itemsCommit : Items :=
  [("A", [JsVal.str "1", JsVal.str "2", JsVal.str "3"]),
   ("B", [JsVal.str "4", JsVal.str "5"])]

/-- A 10-by-10 droppable rectangle at the origin. -/
def rectTarget : Rect := ⟨0, 0, 10, 10⟩

/-- A translated rect whose top (3) is above the target's bottom edge (10):
the below-modifier does not fire. -/
def rectAbove : Rect := ⟨3, 0, 10, 10⟩

/-- A translated rect whose top (7) is below the target rectangle's vertical
midpoint (5) but above its bottom edge (10). -/
def rectMid : Rect := ⟨7, 0, 10, 10⟩

/-- The commit scenario after `start(1)` and an `over` event whose target
resolved (between B's items 4 and 5) to item 4. -/
def commitAfterOver : DragState :=
  onDragOver (onDragStart (initState itemsCommit) "1") "1"
    (some ("4", rectTarget)) (some rectAbove)

/-- The commit scenario one over event later: after the optimistic move the
collision target resolves to the dragged item itself (the pointer now sits on
it), so the session ends with that over value. -/
def commitAfterOver2 : DragState :=
  onDragOver commitAfterOver "1" (some ("1", rectTarget)) (some rectAbove)

/-- The abandoned-drag scenario's initial Registry `{A:[1,2], B:[]}`. -/
def itemsAbandoned : Items :=
  [("A", [JsVal.str "1", JsVal.str "2"]), ("B", [])]

/-- The abandoned-drag scenario after `start(1)` and `over(B)`. -/
def abandonedAfterOver : DragState :=
  onDragOver (onDragStart (initState itemsAbandoned) "1") "1"
    (some ("B", rectTarget)) (some rectAbove)

/-- A Registry whose container key "C" also occurs as a member item of C's own
sequence (identifier namespaces shared, as spec section 9 leaves open). -/
def itemsShared : Items :=
  [("C", [JsVal.str "x", JsVal.str "C"]), ("B", [JsVal.str "y"])]

/-- Dragging the shared identifier "C", with the collision detector in
container mode resolving container B, and dropping there. -/
def sharedFinal : DragState :=
  onDragEnd (onDragOver (onDragStart (initState itemsShared) "C") "C"
    (some ("B", rectTarget)) none) "C" (some ("B", rectTarget))

/-- The midpoint-rule scenario Registry `{A:[1,2], B:[3]}`. -/
def itemsMid : Items :=
  [("A", [JsVal.str "1", JsVal.str "2"]), ("B", [JsVal.str "3"])]

/-- A state mid-drag, used to exercise a second `start` during a session: item
1 of the abandoned-drag Registry is active and an older (different) snapshot
is held. -/
def startBusy : DragState :=
  { itemList := itemsAbandoned, activeId := some "1",
    clonedItems := some [("A", [JsVal.str "9"])], recentlyMoved := false }

/-- The insertion-index rule as the claim words it: the matched item's
position, incremented by one exactly when the pointer's vertical position lies
below the matched item's vertical midpoint (both sides doubled to stay in the
integers; the pointer's vertical position read, most charitably to the claim,
as the dragged rect's translated top).  Second definition following the
claim's words, to be compared with the source's `dragOverNewIndex`. -/
def claimInsertIndex (overIndex : Int) (pointerY : Int) (orect : Rect) : Int :=
  overIndex + (if 2 * pointerY > 2 * orect.top + orect.height then 1 else 0)

/-! ### Registry algebra lemmas -/

theorem keysOf_cons {e : String × List JsVal} {tl : Items} :
    keysOf (e :: tl) = e.1 :: keysOf tl := rfl

theorem hasKey_cons {e : String × List JsVal} {tl : Items} {k : String} :
    hasKey (e :: tl) k = (decide (e.1 = k) || hasKey tl k) := by
  simp [hasKey]

theorem hasKey_iff_mem {items : Items} {k : String} :
    hasKey items k = true ↔ k ∈ keysOf items := by
  induction items with
  | nil => simp [hasKey, keysOf]
  | cons e tl ih =>
    rw [keysOf_cons, List.mem_cons, hasKey_cons]
    constructor
    · intro h
      rcases Bool.or_eq_true_iff.mp h with h1 | h2
      · exact Or.inl (of_decide_eq_true h1).symm
      · exact Or.inr (ih.mp h2)
    · intro h
      rcases h with h1 | h2
      · exact Bool.or_eq_true_iff.mpr (Or.inl (decide_eq_true h1.symm))
      · exact Bool.or_eq_true_iff.mpr (Or.inr (ih.mpr h2))

theorem hasKey_cons_ne {e : String × List JsVal} {tl : Items} {k : String}
    (h : e.1 ≠ k) : hasKey (e :: tl) k = hasKey tl k := by
  simp [hasKey, h]


theorem getList_cons {e : String × List JsVal} {tl : Items} {k : String} :
    getList (e :: tl) k = if e.1 = k then e.2 else getList tl k := by
  by_cases h : e.1 = k <;> simp [getList, List.find?_cons_of_pos, List.find?_cons_of_neg, h]

theorem setKey_cons {e : String × List JsVal} {tl : Items} {k : String} {v : List JsVal} :
    setKey (e :: tl) k v = (if e.1 = k then (k, v) else e) :: setKey tl k v := by
  simp [setKey]

theorem registryUnion_cons {e : String × List JsVal} {tl : Items} :
    registryUnion (e :: tl) = (e.2 : Multiset JsVal) + registryUnion tl := rfl

theorem keysOf_setKey {items : Items} {k : String} {v : List JsVal} :
    keysOf (setKey items k v) = keysOf items := by
  induction items with
  | nil => rfl
  | cons e tl ih =>
    by_cases h : e.1 = k <;> simp [setKey_cons, keysOf, h] <;>
      simpa [keysOf] using ih

theorem hasKey_setKey {items : Items} {j k : String} {v : List JsVal} :
    hasKey (setKey items j v) k = hasKey items k := by
  rw [Bool.eq_iff_iff, hasKey_iff_mem, hasKey_iff_mem, keysOf_setKey]

theorem setKey_of_not_hasKey {items : Items} {k : String} {v : List JsVal}
    (h : hasKey items k = false) : setKey items k v = items := by
  induction items with
  | nil => rfl
  | cons e tl ih =>
    rw [hasKey_cons] at h
    simp only [Bool.or_eq_false_iff, decide_eq_false_iff_not] at h
    rw [setKey_cons, if_neg h.1, ih h.2]

theorem getList_setKey_self {items : Items} {k : String} {v : List JsVal}
    (h : hasKey items k = true) : getList (setKey items k v) k = v := by
  induction items with
  | nil => simp [hasKey] at h
  | cons e tl ih =>
    by_cases he : e.1 = k
    · simp [setKey_cons, he, getList_cons]
    · rw [hasKey_cons_ne he] at h
      rw [setKey_cons, if_neg he, getList_cons, if_neg he, ih h]

theorem getList_setKey_ne {items : Items} {j k : String} {v : List JsVal}
    (h : j ≠ k) : getList (setKey items j v) k = getList items k := by
  induction items with
  | nil => rfl
  | cons e tl ih =>
    by_cases he : e.1 = j
    · rw [setKey_cons, if_pos he, getList_cons, getList_cons, he]
      simp only [if_neg h, ih]
    · rw [setKey_cons, if_neg he, getList_cons, getList_cons, ih]

theorem registryUnion_setKey_decomp {items : Items} {k : String}
    (hnd : (keysOf items).Nodup) (hk : hasKey items k = true) :
    ∃ rest : Multiset JsVal,
      registryUnion items = (getList items k : Multiset JsVal) + rest ∧
      ∀ v : List JsVal, registryUnion (setKey items k v) = (v : Multiset JsVal) + rest := by
  induction items with
  | nil => simp [hasKey] at hk
  | cons e tl ih =>
    by_cases he : e.1 = k
    · refine ⟨registryUnion tl, ?_, ?_⟩
      · rw [registryUnion_cons, getList_cons, if_pos he]
      · intro v
        have hknot : hasKey tl k = false := by
          rw [keysOf_cons, List.nodup_cons] at hnd
          rw [← Bool.not_eq_true, hasKey_iff_mem]
          subst he
          exact hnd.1
        rw [setKey_cons, if_pos he, registryUnion_cons, setKey_of_not_hasKey hknot]
    · rw [hasKey_cons_ne he] at hk
      rw [keysOf_cons, List.nodup_cons] at hnd
      rcases ih hnd.2 hk with ⟨rest0, h1, h2⟩
      refine ⟨(e.2 : Multiset JsVal) + rest0, ?_, ?_⟩
      · rw [registryUnion_cons, getList_cons, if_neg he, h1, add_left_comm]
      · intro v
        rw [setKey_cons, if_neg he, registryUnion_cons, h2, add_left_comm]


/-! ### List index and permutation lemmas -/

theorem listIndexOf_spec {l : List JsVal} {v : JsVal} (h : v ∈ l) :
    0 ≤ listIndexOf l v ∧ listIndexOf l v < (l.length : Int) ∧
      jsGet l (listIndexOf l v) = v := by
  induction l with
  | nil => simp at h
  | cons x xs ih =>
    by_cases hx : x = v
    · refine ⟨by simp [listIndexOf, hx], ?_, by simp [listIndexOf, hx, jsGet]⟩
      rw [listIndexOf, if_pos hx]
      simp
    · have hmem : v ∈ xs := by
        rcases List.mem_cons.mp h with h1 | h1
        · exact absurd h1.symm hx
        · exact h1
      rcases ih hmem with ⟨h0, h1, h2⟩
      have hne : listIndexOf (x :: xs) v = listIndexOf xs v + 1 := by
        rw [listIndexOf]
        simp only [hx, if_false]
        rw [if_neg (by omega)]
      refine ⟨by omega, by rw [hne]; simp; omega, ?_⟩
      rw [hne, jsGet, if_neg (by omega)]
      have htn : (listIndexOf xs v + 1).toNat = (listIndexOf xs v).toNat + 1 := by omega
      rw [htn, List.getD_cons_succ]
      rw [jsGet, if_neg (by omega)] at h2
      exact h2

theorem mem_of_listIndexOf_nonneg {l : List JsVal} {v : JsVal}
    (h : 0 ≤ listIndexOf l v) : v ∈ l := by
  induction l with
  | nil => simp [listIndexOf] at h
  | cons x xs ih =>
    by_cases hx : x = v
    · exact hx ▸ List.mem_cons_self x xs
    · rw [listIndexOf] at h
      simp only [hx, if_false] at h
      by_cases hr : listIndexOf xs v < 0
      · rw [if_pos hr] at h
        omega
      · exact List.mem_cons_of_mem x (ih (by omega))

theorem listIndexOf_neg_of_not_mem {l : List JsVal} {v : JsVal}
    (h : v ∉ l) : listIndexOf l v = -1 := by
  induction l with
  | nil => rfl
  | cons x xs ih =>
    rw [listIndexOf]
    have hx : ¬ x = v := fun he => h (he ▸ List.mem_cons_self x xs)
    simp only [hx, if_false]
    rw [ih (fun hm => h (List.mem_cons_of_mem x hm))]
    norm_num

theorem filter_ne_perm {l : List JsVal} {a : JsVal} (hnd : l.Nodup) (h : a ∈ l) :
    l.Perm (a :: l.filter (fun x => decide (x ≠ a))) := by
  induction l with
  | nil => simp at h
  | cons x xs ih =>
    rcases List.nodup_cons.mp hnd with ⟨hnin, hnd2⟩
    by_cases hx : x = a
    · subst hx
      have hfl : xs.filter (fun y => decide (y ≠ x)) = xs :=
        List.filter_eq_self.mpr (fun b hb => decide_eq_true (fun hba => hnin (hba ▸ hb)))
      rw [List.filter_cons, if_neg (by simp), hfl]
    · have hmem : a ∈ xs := by
        rcases List.mem_cons.mp h with h1 | h1
        · exact absurd h1.symm hx
        · exact h1
      have hp := ih hnd2 hmem
      rw [List.filter_cons, if_pos (by simp [hx])]
      exact (hp.cons x).trans (List.Perm.swap a x _)

theorem take_get_drop {l : List JsVal} {n : Nat} (h : n < l.length) :
    l.take n ++ l[n] :: l.drop (n + 1) = l := by
  induction l generalizing n with
  | nil => simp at h
  | cons x xs ih =>
    cases n with
    | zero => simp
    | succ m =>
      have hm : m < xs.length := by simpa using h
      simp only [List.take_succ_cons, List.drop_succ_cons, List.getElem_cons_succ,
        List.cons_append, List.cons.injEq, true_and]
      exact ih hm

theorem arrayMove_coe {l : List JsVal} {i j : Int}
    (h0 : 0 ≤ i) (h1 : i < (l.length : Int)) :
    ((arrayMove l i j : List JsVal) : Multiset JsVal) = (l : Multiset JsVal) := by
  have hfn : jsIdx l.length i = i.toNat := by
    rw [jsIdx, if_neg (by omega)]
    exact min_eq_left (by omega)
  have hflt : i.toNat < l.length := by omega
  have hrm : jsGet l ((i.toNat : Nat) : Int) = l[i.toNat] := by
    rw [jsGet, if_neg (by omega)]
    rw [Int.toNat_ofNat]
    exact List.getD_eq_getElem l JsVal.undef hflt
  rw [arrayMove]
  simp only [hfn, hflt, if_true, if_pos hflt]
  set rest := l.take i.toNat ++ l.drop (i.toNat + 1) with hrest
  set insAt := jsIdx rest.length (if j < 0 then (l.length : Int) + j else j) with hins
  have p1 : (rest.take insAt ++ jsGet l ((i.toNat : Nat) : Int) :: rest.drop insAt).Perm
      (jsGet l ((i.toNat : Nat) : Int) :: rest) := by
    have hp := @List.perm_middle JsVal (jsGet l ((i.toNat : Nat) : Int))
      (rest.take insAt) (rest.drop insAt)
    simpa [List.take_append_drop] using hp
  have p2 : (jsGet l ((i.toNat : Nat) : Int) :: rest).Perm l := by
    rw [hrm, hrest]
    have hp := (@List.perm_middle JsVal (l[i.toNat])
      (l.take i.toNat) (l.drop (i.toNat + 1))).symm
    rw [take_get_drop hflt] at hp
    exact hp
  exact Multiset.coe_eq_coe.mpr (p1.trans p2)

theorem slices_insert_coe {l : List JsVal} {v : JsVal} {n : Int} :
    ((jsSlice l 0 n ++ v :: jsSlice l n (l.length : Int)) : Multiset JsVal)
      = v ::ₘ (l : Multiset JsVal) := by
  have h0 : jsIdx l.length 0 = 0 := by simp [jsIdx]
  have hl : jsIdx l.length (l.length : Int) = l.length := by simp [jsIdx]
  rw [jsSlice, jsSlice, h0, hl, List.drop_zero, List.take_length]
  have hp : (l.take (jsIdx l.length n) ++ v :: l.drop (jsIdx l.length n)).Perm (v :: l) := by
    have hm := @List.perm_middle JsVal v (l.take (jsIdx l.length n))
      (l.drop (jsIdx l.length n))
    simpa [List.take_append_drop] using hm
  rw [Multiset.cons_coe]
  exact Multiset.coe_eq_coe.mpr hp


/-! ### Container resolution lemmas -/

theorem mem_registryUnion_of_mem {items : Items} {k : String} {v : JsVal}
    (hnd : (keysOf items).Nodup) (hk : hasKey items k = true)
    (h : v ∈ getList items k) : v ∈ registryUnion items := by
  rcases registryUnion_setKey_decomp hnd hk with ⟨rest, h1, _⟩
  rw [h1]
  exact Multiset.mem_add.mpr (Or.inl (Multiset.mem_coe.mpr h))

theorem mem_registryUnion_exists {items : Items} {a : JsVal}
    (hnd : (keysOf items).Nodup) (h : a ∈ registryUnion items) :
    ∃ c, hasKey items c = true ∧ a ∈ getList items c := by
  induction items with
  | nil => simp [registryUnion] at h
  | cons e tl ih =>
    rw [registryUnion_cons, Multiset.mem_add] at h
    rcases h with h | h
    · refine ⟨e.1, by rw [hasKey_cons]; simp, ?_⟩
      rw [getList_cons, if_pos rfl]
      exact Multiset.mem_coe.mp h
    · rw [keysOf_cons, List.nodup_cons] at hnd
      rcases ih hnd.2 h with ⟨c, hc1, hc2⟩
      have hne : e.1 ≠ c := fun he => hnd.1 (he ▸ hasKey_iff_mem.mp hc1)
      refine ⟨c, ?_, ?_⟩
      · rw [hasKey_cons]
        simp [hc1]
      · rw [getList_cons, if_neg hne]
        exact hc2

theorem getList_nodup {items : Items} {k : String}
    (hnd : (keysOf items).Nodup) (hU : (registryUnion items).Nodup)
    (hk : hasKey items k = true) : (getList items k).Nodup := by
  rcases registryUnion_setKey_decomp hnd hk with ⟨rest, h1, _⟩
  rw [h1] at hU
  exact Multiset.coe_nodup.mp (Multiset.nodup_add.mp hU).1

theorem findContainerId_of_hasKey {items : Items} {a : String}
    (h : hasKey items a = true) : findContainerId items a = some a := by
  rw [findContainerId, if_pos h]

theorem find_contains_eq_some {items : Items} {a c : String}
    (hnd : (keysOf items).Nodup)
    (h : (items.find? (fun e => decide (JsVal.str a ∈ e.2))).map (fun e => e.1) = some c) :
    hasKey items c = true ∧ JsVal.str a ∈ getList items c := by
  induction items with
  | nil => simp at h
  | cons e tl ih =>
    by_cases hm : JsVal.str a ∈ e.2
    · have hf : (e :: tl).find? (fun x => decide (JsVal.str a ∈ x.2)) = some e := by
        rw [List.find?_cons_of_pos]
        simpa using hm
      rw [hf] at h
      obtain rfl : e.1 = c := by simpa using h
      refine ⟨by rw [hasKey_cons]; simp, ?_⟩
      rw [getList_cons, if_pos rfl]
      exact hm
    · have hf : (e :: tl).find? (fun x => decide (JsVal.str a ∈ x.2)) =
          tl.find? (fun x => decide (JsVal.str a ∈ x.2)) := by
        rw [List.find?_cons_of_neg]
        simpa using hm
      rw [hf] at h
      rw [keysOf_cons, List.nodup_cons] at hnd
      rcases ih hnd.2 h with ⟨hc1, hc2⟩
      have hne : e.1 ≠ c := fun he => hnd.1 (he ▸ hasKey_iff_mem.mp hc1)
      refine ⟨by rw [hasKey_cons]; simp [hc1], ?_⟩
      rw [getList_cons, if_neg hne]
      exact hc2

theorem findContainerId_mem {items : Items} {a c : String}
    (hnd : (keysOf items).Nodup) (hna : hasKey items a = false)
    (h : findContainerId items a = some c) :
    hasKey items c = true ∧ JsVal.str a ∈ getList items c := by
  rw [findContainerId, if_neg (by simp [hna])] at h
  exact find_contains_eq_some hnd h

theorem find_contains_unique {items : Items} {a c : String}
    (hnd : (keysOf items).Nodup) (hU : (registryUnion items).Nodup)
    (hkc : hasKey items c = true) (hmem : JsVal.str a ∈ getList items c) :
    (items.find? (fun e => decide (JsVal.str a ∈ e.2))).map (fun e => e.1) = some c := by
  induction items with
  | nil => simp [hasKey] at hkc
  | cons e tl ih =>
    by_cases hec : e.1 = c
    · rw [getList_cons, if_pos hec] at hmem
      have hf : (e :: tl).find? (fun x => decide (JsVal.str a ∈ x.2)) = some e := by
        rw [List.find?_cons_of_pos]
        simpa using hmem
      rw [hf]
      simpa using hec
    · have hkc2 : hasKey tl c = true := by
        rw [hasKey_cons] at hkc
        simpa [hec] using hkc
      rw [getList_cons, if_neg hec] at hmem
      rw [registryUnion_cons] at hU
      rw [keysOf_cons, List.nodup_cons] at hnd
      have hmem2 : JsVal.str a ∈ registryUnion tl :=
        mem_registryUnion_of_mem hnd.2 hkc2 hmem
      have hnotin : JsVal.str a ∉ e.2 := by
        rcases Multiset.nodup_add.mp hU with ⟨_, _, hdisj⟩
        intro hin
        exact Multiset.disjoint_left.mp hdisj (Multiset.mem_coe.mpr hin) hmem2
      have hf : (e :: tl).find? (fun x => decide (JsVal.str a ∈ x.2)) =
          tl.find? (fun x => decide (JsVal.str a ∈ x.2)) := by
        rw [List.find?_cons_of_neg]
        simpa using hnotin
      rw [hf]
      exact ih hnd.2 (Multiset.nodup_add.mp hU).2.1 hkc2 hmem

theorem findContainerId_eq_of_mem {items : Items} {a c : String}
    (hnd : (keysOf items).Nodup) (hU : (registryUnion items).Nodup)
    (hna : hasKey items a = false)
    (hkc : hasKey items c = true) (hmem : JsVal.str a ∈ getList items c) :
    findContainerId items a = some c := by
  rw [findContainerId, if_neg (by simp [hna])]
  exact find_contains_unique hnd hU hkc hmem

/-! ### The optimistic cross-container move -/

theorem dragOverUpdate_eq {items : Items} {a oid oc ac : String} {orect : Rect}
    {tr : Option Rect}
    (hoc : findContainerId items oid = some oc)
    (hac : findContainerId items a = some ac)
    (hne : ac ≠ oc) :
    dragOverUpdate items a oid orect tr =
      some (setKey
        (setKey items ac ((getList items ac).filter (fun item => decide (item ≠ JsVal.str a))))
        oc
        (jsSlice (getList items oc) 0 (dragOverNewIndex items oid (getList items oc) orect tr) ++
          jsGet (getList items ac) (listIndexOf (getList items ac) (JsVal.str a)) ::
            jsSlice (getList items oc) (dragOverNewIndex items oid (getList items oc) orect tr)
              ((getList items oc).length : Int))) := by
  rw [dragOverUpdate, hoc, hac]
  dsimp only
  rw [if_pos hne]

theorem dragOverUpdate_none_oid {items : Items} {a oid : String} {orect : Rect}
    {tr : Option Rect}
    (h : findContainerId items oid = none) :
    dragOverUpdate items a oid orect tr = none := by
  rw [dragOverUpdate, h]

theorem dragOverUpdate_none_active {items : Items} {a oid oc : String} {orect : Rect}
    {tr : Option Rect}
    (hoc : findContainerId items oid = some oc)
    (ha : findContainerId items a = none) :
    dragOverUpdate items a oid orect tr = none := by
  rw [dragOverUpdate, hoc, ha]

theorem dragOverUpdate_none_same {items : Items} {a oid oc ac : String} {orect : Rect}
    {tr : Option Rect}
    (hoc : findContainerId items oid = some oc)
    (hac : findContainerId items a = some ac)
    (hne : ac = oc) :
    dragOverUpdate items a oid orect tr = none := by
  rw [dragOverUpdate, hoc, hac]
  dsimp only
  rw [if_neg (by simp [hne])]

theorem dragOverUpdate_none_cases {items : Items} {a oid : String} {orect : Rect}
    {tr : Option Rect}
    (h : dragOverUpdate items a oid orect tr = none) :
    findContainerId items oid = none ∨ findContainerId items a = none ∨
      (∃ c, findContainerId items oid = some c ∧ findContainerId items a = some c) := by
  rcases hoc : findContainerId items oid with _ | oc
  · exact Or.inl rfl
  rcases hac : findContainerId items a with _ | ac
  · exact Or.inr (Or.inl rfl)
  by_cases hne : ac = oc
  · exact Or.inr (Or.inr ⟨oc, rfl, by rw [hne]⟩)
  · rw [dragOverUpdate_eq hoc hac hne] at h
    exact absurd h (by simp)

theorem dragOverUpdate_some_spec {items u : Items} {a oid : String} {orect : Rect}
    {tr : Option Rect}
    (hnd : (keysOf items).Nodup) (hU : (registryUnion items).Nodup)
    (hna : hasKey items a = false)
    (h : dragOverUpdate items a oid orect tr = some u) :
    keysOf u = keysOf items ∧
    registryUnion u = registryUnion items ∧
    ∃ oc, findContainerId items oid = some oc ∧
      findContainerId u a = some oc ∧ findContainerId u oid = some oc := by
  rcases hoc : findContainerId items oid with _ | oc
  · rw [dragOverUpdate_none_oid hoc] at h
    exact absurd h (by simp)
  rcases hac : findContainerId items a with _ | ac
  · rw [dragOverUpdate_none_active hoc hac] at h
    exact absurd h (by simp)
  by_cases hne : ac = oc
  · rw [dragOverUpdate_none_same hoc hac hne] at h
    exact absurd h (by simp)
  rw [dragOverUpdate_eq hoc hac hne] at h
  obtain ⟨hkac, hmemac⟩ := findContainerId_mem hnd hna hac
  have hkoc : hasKey items oc = true := by
    by_cases hk : hasKey items oid = true
    · have hself := findContainerId_of_hasKey hk
      rw [hoc] at hself
      have hoideq : oc = oid := by simpa using hself
      rw [hoideq]
      exact hk
    · exact (findContainerId_mem hnd (by simpa using hk) hoc).1
  set la := (getList items ac).filter (fun item => decide (item ≠ JsVal.str a)) with hla
  set n := dragOverNewIndex items oid (getList items oc) orect tr with hn
  set lo := jsSlice (getList items oc) 0 n ++
      jsGet (getList items ac) (listIndexOf (getList items ac) (JsVal.str a)) ::
        jsSlice (getList items oc) n ((getList items oc).length : Int) with hlo
  have hjg : jsGet (getList items ac) (listIndexOf (getList items ac) (JsVal.str a))
      = JsVal.str a := (listIndexOf_spec hmemac).2.2
  have hlocoe : (lo : Multiset JsVal) = JsVal.str a ::ₘ (getList items oc : Multiset JsVal) := by
    rw [hlo, hjg]
    exact slices_insert_coe
  have haccoe : ((getList items ac : List JsVal) : Multiset JsVal)
      = JsVal.str a ::ₘ (la : Multiset JsVal) := by
    have hperm := filter_ne_perm (getList_nodup hnd hU hkac) hmemac
    rw [Multiset.cons_coe]
    exact Multiset.coe_eq_coe.mpr hperm
  obtain ⟨r1, e1, f1⟩ := registryUnion_setKey_decomp hnd hkac
  set items1 := setKey items ac la with hitems1
  have hnd1 : (keysOf items1).Nodup := by rw [hitems1, keysOf_setKey]; exact hnd
  have hk1oc : hasKey items1 oc = true := by rw [hitems1, hasKey_setKey]; exact hkoc
  obtain ⟨r2, e2, f2⟩ := registryUnion_setKey_decomp hnd1 hk1oc
  have hget1 : getList items1 oc = getList items oc := by
    rw [hitems1]
    exact getList_setKey_ne hne
  have hu : u = setKey items1 oc lo := (Option.some.inj h).symm
  have hunion1 : registryUnion items1 = (la : Multiset JsVal) + r1 := f1 la
  have he2 : (la : Multiset JsVal) + r1 = (getList items oc : Multiset JsVal) + r2 := by
    rw [← hunion1, e2, hget1]
  have hunionu : registryUnion u = registryUnion items := by
    rw [hu, f2 lo, hlocoe, Multiset.cons_add, ← he2, ← Multiset.cons_add, ← haccoe, ← e1]
  have hkeysu : keysOf u = keysOf items := by
    rw [hu, hitems1, keysOf_setKey, keysOf_setKey]
  have hndu : (keysOf u).Nodup := by rw [hkeysu]; exact hnd
  have hUu : (registryUnion u).Nodup := by rw [hunionu]; exact hU
  have hkua : hasKey u a = false := by
    rw [hu, hitems1, hasKey_setKey, hasKey_setKey]
    exact hna
  have hkuoc : hasKey u oc = true := by
    rw [hu, hitems1, hasKey_setKey, hasKey_setKey]
    exact hkoc
  have hgetu : getList u oc = lo := by
    rw [hu]
    exact getList_setKey_self hk1oc
  have hmau : JsVal.str a ∈ getList u oc := by
    rw [hgetu]
    have hm : JsVal.str a ∈ (lo : Multiset JsVal) := by
      rw [hlocoe]
      exact Multiset.mem_cons_self _ _
    exact Multiset.mem_coe.mp hm
  refine ⟨hkeysu, hunionu, oc, rfl, findContainerId_eq_of_mem hndu hUu hkua hkuoc hmau, ?_⟩
  by_cases hk : hasKey items oid = true
  · have hself := findContainerId_of_hasKey hk
    rw [hoc] at hself
    have hoideq : oc = oid := by simpa using hself
    subst hoideq
    apply findContainerId_of_hasKey
    rw [hu, hitems1, hasKey_setKey, hasKey_setKey]
    exact hk
  · have hmemoid : JsVal.str oid ∈ getList items oc :=
      (findContainerId_mem hnd (by simpa using hk) hoc).2
    have hkuoid : hasKey u oid = false := by
      rw [hu, hitems1, hasKey_setKey, hasKey_setKey]
      simpa using hk
    have hmou : JsVal.str oid ∈ getList u oc := by
      rw [hgetu]
      have hm : JsVal.str oid ∈ (lo : Multiset JsVal) := by
        rw [hlocoe]
        exact Multiset.mem_cons_of_mem (Multiset.mem_coe.mpr hmemoid)
      exact Multiset.mem_coe.mp hm
    exact findContainerId_eq_of_mem hndu hUu hkuoid hkuoc hmou


/-! ### The drag-end reorder -/

theorem dragEndUpdate_none_active {items : Items} {a : String}
    {ov : Option (String × Rect)}
    (ha : findContainerId items a = none) : dragEndUpdate items a ov = none := by
  rw [dragEndUpdate, ha]

theorem dragEndUpdate_none_over {items : Items} {a : String} :
    dragEndUpdate items a none = none := by
  rw [dragEndUpdate]
  rcases findContainerId items a with _ | c <;> rfl

theorem dragEndUpdate_none_target {items : Items} {a oid ac : String} {r : Rect}
    (ha : findContainerId items a = some ac)
    (ho : findContainerId items oid = none) :
    dragEndUpdate items a (some (oid, r)) = none := by
  rw [dragEndUpdate, ha]
  dsimp only
  rw [ho]

theorem dragEndUpdate_eq {items : Items} {a oid ac oc : String} {r : Rect}
    (ha : findContainerId items a = some ac)
    (ho : findContainerId items oid = some oc) :
    dragEndUpdate items a (some (oid, r)) =
      (if listIndexOf (getList items ac) (JsVal.str a)
            ≠ listIndexOf (getList items oc) (JsVal.str oid)
       then some (setKey items oc
          (arrayMove (getList items oc) (listIndexOf (getList items ac) (JsVal.str a))
            (listIndexOf (getList items oc) (JsVal.str oid))))
       else none) := by
  rw [dragEndUpdate, ha]
  dsimp only
  rw [ho]

theorem dragEndUpdate_same_spec {items : Items} {a oid c : String} {r : Rect}
    (hnd : (keysOf items).Nodup)
    (hna : hasKey items a = false)
    (ha : findContainerId items a = some c)
    (ho : findContainerId items oid = some c) :
    keysOf ((dragEndUpdate items a (some (oid, r))).getD items) = keysOf items ∧
    registryUnion ((dragEndUpdate items a (some (oid, r))).getD items)
      = registryUnion items := by
  rw [dragEndUpdate_eq ha ho]
  by_cases hix : listIndexOf (getList items c) (JsVal.str a)
      ≠ listIndexOf (getList items c) (JsVal.str oid)
  · rw [if_pos hix]
    obtain ⟨hkc, hmem⟩ := findContainerId_mem hnd hna ha
    obtain ⟨hge0, hlt, _⟩ := listIndexOf_spec hmem
    have ham := arrayMove_coe (l := getList items c)
      (j := listIndexOf (getList items c) (JsVal.str oid)) hge0 hlt
    obtain ⟨rest, e1, f1⟩ := registryUnion_setKey_decomp hnd hkc
    refine ⟨by simp [keysOf_setKey], ?_⟩
    simp only [Option.getD_some]
    rw [f1, ham, ← e1]
  · rw [if_neg hix]
    exact ⟨rfl, rfl⟩

/-! ### Handler shape lemmas -/

theorem onDragOver_of_hasKey {s : DragState} {a : String} {ov : Option (String × Rect)}
    {tr : Option Rect} (hk : hasKey s.itemList a = true) :
    onDragOver s a ov tr = s := by
  rcases ov with _ | ⟨oid, orect⟩
  · rfl
  · rw [onDragOver, if_pos hk]

theorem onDragOver_some_update {s : DragState} {a oid : String} {orect : Rect}
    {tr : Option Rect} {u : Items}
    (hk : hasKey s.itemList a = false)
    (h : dragOverUpdate s.itemList a oid orect tr = some u) :
    onDragOver s a (some (oid, orect)) tr
      = { s with itemList := u, recentlyMoved := true } := by
  rw [onDragOver, if_neg (by simp [hk]), h]

theorem onDragOver_none_update {s : DragState} {a oid : String} {orect : Rect}
    {tr : Option Rect}
    (hk : hasKey s.itemList a = false)
    (h : dragOverUpdate s.itemList a oid orect tr = none) :
    onDragOver s a (some (oid, orect)) tr = s := by
  rw [onDragOver, if_neg (by simp [hk]), h]

theorem onDragOver_frame {s : DragState} {a : String} {ov : Option (String × Rect)}
    {tr : Option Rect} :
    (onDragOver s a ov tr).clonedItems = s.clonedItems ∧
    (onDragOver s a ov tr).activeId = s.activeId := by
  rcases ov with _ | ⟨oid, orect⟩
  · exact ⟨rfl, rfl⟩
  · by_cases hk : hasKey s.itemList a = true
    · rw [onDragOver_of_hasKey hk]
      exact ⟨rfl, rfl⟩
    · rcases h : dragOverUpdate s.itemList a oid orect tr with _ | u
      · rw [onDragOver_none_update (by simpa using hk) h]
        exact ⟨rfl, rfl⟩
      · rw [onDragOver_some_update (by simpa using hk) h]
        exact ⟨rfl, rfl⟩

theorem onDragEnd_fields {s : DragState} {a : String} {ov : Option (String × Rect)} :
    (onDragEnd s a ov).clonedItems = s.clonedItems ∧
    (onDragEnd s a ov).activeId = none ∧
    (onDragEnd s a ov).itemList = (dragEndUpdate s.itemList a ov).getD s.itemList :=
  ⟨rfl, rfl, rfl⟩

theorem onDragCancel_fields {s : DragState} :
    (onDragCancel s).clonedItems = none ∧
    (onDragCancel s).activeId = none ∧
    (onDragCancel s).itemList
      = match s.clonedItems with
        | some c => c
        | none => s.itemList := by
  refine ⟨rfl, rfl, ?_⟩
  rw [onDragCancel]
  rcases s.clonedItems with _ | c <;> rfl


theorem reach_invariant_aux {init : Items} {s : DragState}
    {co : Option (String × Rect)}
    (hg : GoodInit init) (h : Reach init s co) :
    registryUnion s.itemList = registryUnion init ∧
    keysOf s.itemList = keysOf init ∧
    (∀ c, s.clonedItems = some c →
      registryUnion c = registryUnion init ∧ keysOf c = keysOf init) ∧
    (∀ a, s.activeId = some a → JsVal.str a ∈ registryUnion s.itemList) ∧
    (∀ a, s.activeId = some a → ∀ oid r, co = some (oid, r) →
      ∀ c2, findContainerId s.itemList oid = some c2 →
        findContainerId s.itemList a = some c2) := by
  induction h with
  | start0 =>
    refine ⟨rfl, rfl, ?_, ?_, ?_⟩
    · intro c hc
      simp [initState] at hc
    · intro a ha
      simp [initState] at ha
    · intro a ha
      simp [initState] at ha
  | frame h ih => exact ih
  | dragStart h hidle hmem ih =>
    obtain ⟨i1, i2, i3, _, _⟩ := ih
    refine ⟨i1, i2, ?_, ?_, ?_⟩
    · intro c hc
      have hce : _ = c := Option.some.inj hc
      rw [← hce]
      exact ⟨i1, i2⟩
    · intro a3 ha3
      have hia : _ = a3 := Option.some.inj ha3
      rw [← hia]
      exact hmem
    · intro a3 _ oid r hco
      exact absurd hco (by simp)
  | dragOver h hact ih =>
    rename_i s co ov a tr
    obtain ⟨i1, i2, i3, i4, i5⟩ := ih
    have hnds : (keysOf s.itemList).Nodup := by rw [i2]; exact hg.1
    have hUs : (registryUnion s.itemList).Nodup := by rw [i1]; exact hg.2.1
    have hna : hasKey s.itemList a = false := by
      by_cases hk : hasKey s.itemList a = true
      · have hmk : a ∈ keysOf init := by
          rw [← i2]
          exact hasKey_iff_mem.mp hk
        have hnm := hg.2.2 a hmk
        rw [← i1] at hnm
        exact absurd (i4 a hact) hnm
      · simpa using hk
    have hamem : JsVal.str a ∈ registryUnion s.itemList := i4 a hact
    have hfae : ∃ ca, findContainerId s.itemList a = some ca := by
      obtain ⟨ca, hka, hma⟩ := mem_registryUnion_exists hnds hamem
      exact ⟨ca, findContainerId_eq_of_mem hnds hUs hna hka hma⟩
    rcases ov with _ | ⟨oid, orect⟩
    · refine ⟨i1, i2, i3, i4, ?_⟩
      intro a3 _ oid r hco
      exact absurd hco (by simp)
    · rcases h2 : dragOverUpdate s.itemList a oid orect tr with _ | u
      · rw [onDragOver_none_update hna h2]
        refine ⟨i1, i2, i3, i4, ?_⟩
        intro a3 ha3 oid2 r2 hco c2 hc2
        obtain rfl : a3 = a := by
          rw [hact] at ha3
          exact (Option.some.inj ha3).symm
        have hpair : (oid, orect) = (oid2, r2) := Option.some.inj hco
        obtain ⟨rfl, rfl⟩ : oid = oid2 ∧ orect = r2 :=
          ⟨congrArg Prod.fst hpair, congrArg Prod.snd hpair⟩
        rcases dragOverUpdate_none_cases h2 with hc | hc | ⟨c3, hc3, hc4⟩
        · rw [hc] at hc2
          exact absurd hc2 (by simp)
        · obtain ⟨ca, hca⟩ := hfae
          rw [hc] at hca
          exact absurd hca (by simp)
        · rw [hc3] at hc2
          have hc32 : c3 = c2 := Option.some.inj hc2
          rw [← hc32]
          exact hc4
      · rw [onDragOver_some_update hna h2]
        obtain ⟨hkeys, hunion, oc, hoc, hfua, hfuoid⟩ :=
          dragOverUpdate_some_spec hnds hUs hna h2
        refine ⟨by rw [hunion]; exact i1, by rw [hkeys]; exact i2, ?_, ?_, ?_⟩
        · intro c hc
          exact i3 c hc
        · intro a3 ha3
          obtain rfl : a3 = a := by
            have ha3s : s.activeId = some a3 := ha3
            rw [hact] at ha3s
            exact (Option.some.inj ha3s).symm
          rw [hunion]
          exact hamem
        · intro a3 ha3 oid2 r2 hco c2 hc2
          obtain rfl : a3 = a := by
            have ha3s : s.activeId = some a3 := ha3
            rw [hact] at ha3s
            exact (Option.some.inj ha3s).symm
          have hpair : (oid, orect) = (oid2, r2) := Option.some.inj hco
          obtain ⟨rfl, rfl⟩ : oid = oid2 ∧ orect = r2 :=
            ⟨congrArg Prod.fst hpair, congrArg Prod.snd hpair⟩
          rw [hfuoid] at hc2
          have hoce : oc = c2 := Option.some.inj hc2
          rw [← hoce]
          exact hfua
  | dragEnd h hact ih =>
    rename_i s co a
    obtain ⟨i1, i2, i3, i4, i5⟩ := ih
    have hnds : (keysOf s.itemList).Nodup := by rw [i2]; exact hg.1
    have hna : hasKey s.itemList a = false := by
      by_cases hk : hasKey s.itemList a = true
      · have hmk : a ∈ keysOf init := by
          rw [← i2]
          exact hasKey_iff_mem.mp hk
        have hnm := hg.2.2 a hmk
        rw [← i1] at hnm
        exact absurd (i4 a hact) hnm
      · simpa using hk
    have hframe := @onDragEnd_fields s a co
    have hitems :
        registryUnion (onDragEnd s a co).itemList = registryUnion init ∧
        keysOf (onDragEnd s a co).itemList = keysOf init := by
      rw [hframe.2.2]
      rcases co with _ | ⟨oid, r⟩
      · rw [dragEndUpdate_none_over]
        exact ⟨i1, i2⟩
      · rcases hfa : findContainerId s.itemList a with _ | ac
        · rw [dragEndUpdate_none_active hfa]
          exact ⟨i1, i2⟩
        · rcases hfo : findContainerId s.itemList oid with _ | oc
          · rw [dragEndUpdate_none_target hfa hfo]
            exact ⟨i1, i2⟩
          · have hsame : findContainerId s.itemList a = some oc :=
              i5 a hact oid r rfl oc hfo
            rw [hfa] at hsame
            have haceq : ac = oc := Option.some.inj hsame
            rw [← haceq] at hfo
            obtain ⟨hks, hus⟩ := dragEndUpdate_same_spec hnds hna hfa hfo
            exact ⟨by rw [hus]; exact i1, by rw [hks]; exact i2⟩
    refine ⟨hitems.1, hitems.2, ?_, ?_, ?_⟩
    · intro c hc
      rw [hframe.1] at hc
      exact i3 c hc
    · intro a3 ha3
      rw [hframe.2.1] at ha3
      exact absurd ha3 (by simp)
    · intro a3 ha3
      rw [hframe.2.1] at ha3
      exact absurd ha3 (by simp)
  | dragCancel h hact ih =>
    rename_i s co a
    obtain ⟨i1, i2, i3, _, _⟩ := ih
    have hfields := onDragCancel_fields (s := s)
    have hitems :
        registryUnion (onDragCancel s).itemList = registryUnion init ∧
        keysOf (onDragCancel s).itemList = keysOf init := by
      rw [hfields.2.2]
      rcases hc : s.clonedItems with _ | c
      · exact ⟨i1, i2⟩
      · exact i3 c hc
    refine ⟨hitems.1, hitems.2, ?_, ?_, ?_⟩
    · intro c hc
      rw [hfields.1] at hc
      exact absurd hc (by simp)
    · intro a3 ha3
      rw [hfields.2.1] at ha3
      exact absurd ha3 (by simp)
    · intro a3 ha3
      rw [hfields.2.1] at ha3
      exact absurd ha3 (by simp)


/-! ### Slice helper lemmas -/

theorem jsSlice_take {l : List JsVal} {m : Int} (h0 : 0 ≤ m)
    (h1 : m.toNat ≤ l.length) : jsSlice l 0 m = l.take m.toNat := by
  rw [jsSlice]
  have hz : jsIdx l.length 0 = 0 := by simp [jsIdx]
  have hm : jsIdx l.length m = m.toNat := by
    rw [jsIdx, if_neg (by omega)]
    exact min_eq_left h1
  rw [hz, hm, List.drop_zero]

theorem jsSlice_drop {l : List JsVal} {m : Int} (h0 : 0 ≤ m)
    (h1 : m.toNat ≤ l.length) :
    jsSlice l m (l.length : Int) = l.drop m.toNat := by
  rw [jsSlice]
  have hl : jsIdx l.length (l.length : Int) = l.length := by simp [jsIdx]
  have hm : jsIdx l.length m = m.toNat := by
    rw [jsIdx, if_neg (by omega)]
    exact min_eq_left h1
  rw [hl, hm, List.take_length]

/-! ### Claims -/

/-- C1: for every successfully completed (non-cancelled) gesture the engine
invokes the commit callback exactly once with (itemId, finalContainer,
finalIndex): at the end of any reachable drag session, no commit is emitted
without an over target (spec: treated as cancellation; and neither start,
over nor cancel emits anything in the model); with an over target, the single
end emission — an `Option`, so at most one per gesture — exists exactly when
the target resolves, and it then carries the dragged item's identifier, its
final container and its final index: the position at which the item actually
sits in that container of the post-commit Registry.  The commit emission
`onDragEndCommit` is modelled from the spec, the `DragManager` variant
accepting the `onMoved` callback its caller passes being missing from the
provided sources. -/
theorem commit_per_gesture (init : Items) (s : DragState)
    (co : Option (String × Rect)) (a : String)
    (h1 : (keysOf init).Nodup) (h2 : (registryUnion init).Nodup)
    (h3 : ∀ k ∈ keysOf init, JsVal.str k ∉ registryUnion init)
    (h : Reach init s co) (hact : s.activeId = some a) :
    (co = none → onDragEndCommit s a co = none) ∧
    (∀ oid r, co = some (oid, r) →
      ((onDragEndCommit s a co).isSome ↔ (findContainerId s.itemList oid).isSome)) ∧
    (∀ oid r, co = some (oid, r) → ∀ c2, onDragEndCommit s a co = some c2 →
      ∃ c k, c2 = (a, c, k) ∧ 0 ≤ k ∧
        jsGet (getList (onDragEnd s a co).itemList c) k = JsVal.str a ∧
        findContainerId (onDragEnd s a co).itemList a = some c) := by
  obtain ⟨i1, i2, i3, i4, i5⟩ := reach_invariant_aux ⟨h1, h2, h3⟩ h
  have hnds : (keysOf s.itemList).Nodup := by rw [i2]; exact h1
  have hUs : (registryUnion s.itemList).Nodup := by rw [i1]; exact h2
  have hna : hasKey s.itemList a = false := by
    by_cases hk : hasKey s.itemList a = true
    · have hmk : a ∈ keysOf init := by
        rw [← i2]
        exact hasKey_iff_mem.mp hk
      have hnm := h3 a hmk
      rw [← i1] at hnm
      exact absurd (i4 a hact) hnm
    · simpa using hk
  obtain ⟨ca, hka, hma⟩ := mem_registryUnion_exists hnds (i4 a hact)
  have hca : findContainerId s.itemList a = some ca :=
    findContainerId_eq_of_mem hnds hUs hna hka hma
  refine ⟨?_, ?_, ?_⟩
  · rintro rfl
    rcases hq : findContainerId s.itemList a with _ | c <;> simp [onDragEndCommit, hq]
  · intro oid r hco
    subst hco
    rw [onDragEndCommit]
    case val => exact ca
    case heq => exact hca
    rcases ho : findContainerId s.itemList oid with _ | oc <;> simp
  · intro oid r hco c2 hc2
    subst hco
    rw [onDragEndCommit] at hc2
    case val => exact ca
    case heq => exact hca
    rcases ho : findContainerId s.itemList oid with _ | oc
    · rw [ho] at hc2
      exact absurd hc2 (by simp)
    rw [ho] at hc2
    have hc2v : c2 = (a, oc,
        listIndexOf (getList (onDragEnd s a (some (oid, r))).itemList oc) (JsVal.str a)) :=
      (Option.some.inj hc2).symm
    have hsame : findContainerId s.itemList a = some oc := i5 a hact oid r rfl oc ho
    rw [hca] at hsame
    have hcaeq : ca = oc := Option.some.inj hsame
    subst hcaeq
    have hfin : (onDragEnd s a (some (oid, r))).itemList
        = (dragEndUpdate s.itemList a (some (oid, r))).getD s.itemList := rfl
    by_cases hix : listIndexOf (getList s.itemList ca) (JsVal.str a)
        ≠ listIndexOf (getList s.itemList ca) (JsVal.str oid)
    · have hup : dragEndUpdate s.itemList a (some (oid, r))
          = some (setKey s.itemList ca (arrayMove (getList s.itemList ca)
              (listIndexOf (getList s.itemList ca) (JsVal.str a))
              (listIndexOf (getList s.itemList ca) (JsVal.str oid)))) := by
        rw [dragEndUpdate_eq hca ho, if_pos hix]
      obtain ⟨hge, hlt, _⟩ := listIndexOf_spec hma
      have ham := arrayMove_coe (l := getList s.itemList ca)
        (j := listIndexOf (getList s.itemList ca) (JsVal.str oid)) hge hlt
      have hget : getList (onDragEnd s a (some (oid, r))).itemList ca
          = arrayMove (getList s.itemList ca)
              (listIndexOf (getList s.itemList ca) (JsVal.str a))
              (listIndexOf (getList s.itemList ca) (JsVal.str oid)) := by
        rw [hfin, hup]
        exact getList_setKey_self hka
      have hmem2 : JsVal.str a ∈ arrayMove (getList s.itemList ca)
          (listIndexOf (getList s.itemList ca) (JsVal.str a))
          (listIndexOf (getList s.itemList ca) (JsVal.str oid)) := by
        have hmc : JsVal.str a ∈ (arrayMove (getList s.itemList ca)
            (listIndexOf (getList s.itemList ca) (JsVal.str a))
            (listIndexOf (getList s.itemList ca) (JsVal.str oid)) : Multiset JsVal) := by
          rw [ham]
          exact Multiset.mem_coe.mpr hma
        exact Multiset.mem_coe.mp hmc
      obtain ⟨hge2, _, hjg2⟩ := listIndexOf_spec hmem2
      obtain ⟨hks, hus⟩ := dragEndUpdate_same_spec (r := r) hnds hna hca ho
      have hndf : (keysOf (onDragEnd s a (some (oid, r))).itemList).Nodup := by
        rw [hfin, hks]
        exact hnds
      have hUf : (registryUnion (onDragEnd s a (some (oid, r))).itemList).Nodup := by
        rw [hfin, hus]
        exact hUs
      have hnaf : hasKey (onDragEnd s a (some (oid, r))).itemList a = false := by
        by_cases hx : hasKey (onDragEnd s a (some (oid, r))).itemList a = true
        · have hmx := hasKey_iff_mem.mp hx
          rw [hfin, hks] at hmx
          exact absurd (hasKey_iff_mem.mpr hmx) (by simp [hna])
        · simpa using hx
      have hkaf : hasKey (onDragEnd s a (some (oid, r))).itemList ca = true := by
        rw [hasKey_iff_mem, hfin, hks, ← hasKey_iff_mem]
        exact hka
      have hfmem : JsVal.str a ∈ getList (onDragEnd s a (some (oid, r))).itemList ca := by
        rw [hget]
        exact hmem2
      refine ⟨ca, _, hc2v, ?_, ?_, ?_⟩
      · rw [hget]
        exact hge2
      · rw [hget]
        exact hjg2
      · exact findContainerId_eq_of_mem hndf hUf hnaf hkaf hfmem
    · have hup : dragEndUpdate s.itemList a (some (oid, r)) = none := by
        rw [dragEndUpdate_eq hca ho, if_neg hix]
      have hget : (onDragEnd s a (some (oid, r))).itemList = s.itemList := by
        rw [hfin, hup]
        rfl
      obtain ⟨hge, _, hjg⟩ := listIndexOf_spec hma
      refine ⟨ca, _, hc2v, ?_, ?_, ?_⟩
      · rw [hget]
        exact hge
      · rw [hget]
        exact hjg
      · rw [hget]
        exact hca

/-- C1 witness: the per-gesture commit theorem applied to the reachable trace
start(1); over(item 4); over(the moved item itself); end — the concrete
cross-container scenario: the Registry is {A:[2,3], B:[1,4,5]} and the single
commit is (1, "B", 0). -/
theorem commit_per_gesture_witness :
    commitAfterOver2.itemList
      = [("A", [JsVal.str "2", JsVal.str "3"]),
         ("B", [JsVal.str "1", JsVal.str "4", JsVal.str "5"])] ∧
    onDragEndCommit commitAfterOver2 "1" (some ("1", rectTarget))
      = some ("1", "B", 0) ∧
    ∃ c k, (("1", "B", 0) : String × String × Int) = ("1", c, k) ∧ 0 ≤ k ∧
      jsGet (getList (onDragEnd commitAfterOver2 "1"
          (some ("1", rectTarget))).itemList c) k = JsVal.str "1" ∧
      findContainerId (onDragEnd commitAfterOver2 "1"
          (some ("1", rectTarget))).itemList "1" = some c := by
  refine ⟨by decide, by decide, ?_⟩
  exact (commit_per_gesture itemsCommit commitAfterOver2 (some ("1", rectTarget)) "1"
    (by decide) (by decide) (by decide)
    (Reach.dragOver (Reach.dragOver (Reach.dragStart Reach.start0 rfl (by decide)) rfl) rfl)
    rfl).2.2 "1" rectTarget rfl ("1", "B", 0) (by decide)

/-- C2 (amended): when the gesture-end event resolves no drop target, end()
clears the active id and commits nothing, but unlike cancel() it neither
restores the Registry (the optimistic state is kept) nor discards the
snapshot. -/
theorem end_without_target (s : DragState) (a : String) :
    (onDragEnd s a none).itemList = s.itemList ∧
    (onDragEnd s a none).activeId = none ∧
    (onDragEnd s a none).clonedItems = s.clonedItems ∧
    onDragEndCommit s a none = none := by
  refine ⟨?_, rfl, rfl, ?_⟩
  · show (dragEndUpdate s.itemList a none).getD s.itemList = s.itemList
    rw [dragEndUpdate_none_over]
    rfl
  · rcases h : findContainerId s.itemList a with _ | c <;>
      simp [onDragEndCommit, h]

/-- C2 counterexample: in the abandoned-drag scenario ({A:[1,2], B:[]},
start(1), over(B)), end() with no target keeps the moved Registry
{A:[2], B:[1]} and the snapshot, while cancel() restores {A:[1,2], B:[]} and
clears it — end() with no target is not identical to cancel(). -/
theorem end_without_target_counterexample :
    (onDragEnd abandonedAfterOver "1" none).itemList
      = [("A", [JsVal.str "2"]), ("B", [JsVal.str "1"])] ∧
    (onDragCancel abandonedAfterOver).itemList
      = [("A", [JsVal.str "1", JsVal.str "2"]), ("B", [])] ∧
    (onDragEnd abandonedAfterOver "1" none).itemList
      ≠ (onDragCancel abandonedAfterOver).itemList ∧
    (onDragEnd abandonedAfterOver "1" none).clonedItems
      ≠ (onDragCancel abandonedAfterOver).clonedItems := by
  decide

/-- C3: cancel() after start and any finite sequence of over() events restores
the Registry to the state captured at start, discards the session and, there
being no commit emission anywhere on the cancel path, invokes no commit
callback. -/
theorem cancel_restores_origin (s : DragState) (i : String)
    (evs : List (Option (String × Rect) × Option Rect)) :
    (onDragCancel (runOvers (onDragStart s i) i evs)).itemList = s.itemList ∧
    (onDragCancel (runOvers (onDragStart s i) i evs)).activeId = none ∧
    (onDragCancel (runOvers (onDragStart s i) i evs)).clonedItems = none := by
  have hcl : ∀ (t : DragState) (evs2 : List (Option (String × Rect) × Option Rect)),
      (runOvers t i evs2).clonedItems = t.clonedItems := by
    intro t evs2
    induction evs2 generalizing t with
    | nil => rfl
    | cons e tl ih =>
      have hstep : runOvers t i (e :: tl) = runOvers (onDragOver t i e.1 e.2) i tl := rfl
      rw [hstep, ih, onDragOver_frame.1]
  have h2 : (runOvers (onDragStart s i) i evs).clonedItems = some s.itemList := by
    rw [hcl]
    rfl
  obtain ⟨f1, f2, f3⟩ := onDragCancel_fields (s := runOvers (onDragStart s i) i evs)
  refine ⟨?_, f2, f1⟩
  rw [f3, h2]

/-- C4 (amended): in every reachable state the multiset union of the container
sequences equals the initial universe (no duplication, no orphaning), provided
the initial Registry has unique keys, a duplicate-free union, and no container
key occurring as a member item.  Without that last disjointness assumption the
claim fails (see the counterexample). -/
theorem registry_union_invariant (init : Items) (s : DragState)
    (co : Option (String × Rect))
    (h1 : (keysOf init).Nodup) (h2 : (registryUnion init).Nodup)
    (h3 : ∀ k ∈ keysOf init, JsVal.str k ∉ registryUnion init)
    (h : Reach init s co) :
    registryUnion s.itemList = registryUnion init ∧
    (registryUnion s.itemList).Nodup := by
  obtain ⟨i1, _, _, _, _⟩ := reach_invariant_aux ⟨h1, h2, h3⟩ h
  exact ⟨i1, by rw [i1]; exact h2⟩

/-- C4 witness: the invariant theorem applied to the abandoned-drag trace. -/
theorem registry_union_invariant_witness :
    registryUnion abandonedAfterOver.itemList = registryUnion itemsAbandoned ∧
    (registryUnion abandonedAfterOver.itemList).Nodup :=
  registry_union_invariant itemsAbandoned abandonedAfterOver
    (some ("B", rectTarget)) (by decide) (by decide) (by decide)
    (Reach.dragOver (Reach.dragStart Reach.start0 rfl (by decide)) rfl)

/-- C4 counterexample: with an identifier "C" that is both a container key and
a member item (the shared namespace the spec's section 9 leaves open), the
initial Registry satisfies the invariant (unique keys, duplicate-free union),
yet the reachable trace start("C"), over(B), end() inserts a JS `undefined`
into B — the union no longer equals the universe. -/
theorem registry_union_counterexample :
    (keysOf itemsShared).Nodup ∧ (registryUnion itemsShared).Nodup ∧
    Reach itemsShared sharedFinal none ∧
    registryUnion sharedFinal.itemList ≠ registryUnion itemsShared := by
  refine ⟨by decide, by decide, ?_, by decide⟩
  exact Reach.dragEnd
    (Reach.dragOver (Reach.dragStart Reach.start0 rfl (by decide)) rfl) rfl

/-- C5 (amended): for an over event whose resolved container differs from the
item's current container, the code inserts the dragged item as follows: when
the matched target is a container with no member items, the item becomes the
sole member (observable index 0; the computed `newIndex` is length+1 = 1,
clamped by the insertion slices); when the matched target is an item present
in its container, the insertion index is that item's position incremented by
one exactly when the dragged rect's translated top edge lies strictly below
the matched item's bottom edge (`over.rect.top + over.rect.height`) — not its
vertical midpoint as the claim states. -/
theorem over_insertion_index (items : Items) (a oid : String) (orect : Rect)
    (tr : Option Rect) (ac oc : String)
    (hnd : (keysOf items).Nodup)
    (hna : hasKey items a = false)
    (hoc : findContainerId items oid = some oc)
    (hac : findContainerId items a = some ac)
    (hne : ac ≠ oc) :
    ∃ u, dragOverUpdate items a oid orect tr = some u ∧
      (hasKey items oid = true → getList items oid = [] →
        getList u oc = [JsVal.str a]) ∧
      (hasKey items oid = false → ∀ n : Nat,
        listIndexOf (getList items oc) (JsVal.str oid) = (n : Int) →
        getList u oc =
          (getList items oc).take
              (n + (if isBelowOverItem tr orect then 1 else 0)) ++
            JsVal.str a ::
              (getList items oc).drop
                (n + (if isBelowOverItem tr orect then 1 else 0))) := by
  obtain ⟨hkac, hmemac⟩ := findContainerId_mem hnd hna hac
  have hjg : jsGet (getList items ac) (listIndexOf (getList items ac) (JsVal.str a))
      = JsVal.str a := (listIndexOf_spec hmemac).2.2
  have hkoc : hasKey items oc = true := by
    by_cases hk : hasKey items oid = true
    · have hself := findContainerId_of_hasKey hk
      rw [hoc] at hself
      have hoideq : oc = oid := by simpa using hself
      rw [hoideq]
      exact hk
    · exact (findContainerId_mem hnd (by simpa using hk) hoc).1
  have hk2 : hasKey (setKey items ac ((getList items ac).filter
      (fun item => decide (item ≠ JsVal.str a)))) oc = true := by
    rw [hasKey_setKey]
    exact hkoc
  refine ⟨_, dragOverUpdate_eq hoc hac hne, ?_, ?_⟩
  · intro hk hemp
    have hoideq : oc = oid := by
      have hself := findContainerId_of_hasKey hk
      rw [hoc] at hself
      simpa using hself
    have hempc : getList items oc = [] := by
      rw [hoideq]
      exact hemp
    rw [getList_setKey_self hk2, hempc, hjg]
    simp [jsSlice, jsIdx]
  · intro hk n hidx
    have hkn : JsVal.str oid ∈ getList items oc :=
      mem_of_listIndexOf_nonneg (by rw [hidx]; exact_mod_cast Nat.zero_le n)
    have hlt : listIndexOf (getList items oc) (JsVal.str oid)
        < ((getList items oc).length : Int) := (listIndexOf_spec hkn).2.1
    rw [hidx] at hlt
    rw [getList_setKey_self hk2, hjg]
    cases hb : isBelowOverItem tr orect
    · have hnin : dragOverNewIndex items oid (getList items oc) orect tr
          = (n : Int) := by
        rw [dragOverNewIndex, if_neg (by simp [hk])]
        dsimp only
        rw [hidx, hb, if_pos (by omega)]
        simp
      rw [hnin, jsSlice_take (by omega) (by omega), jsSlice_drop (by omega) (by omega)]
      have ht : (n : Int).toNat = n := by omega
      rw [ht]
      simp
    · have hnin : dragOverNewIndex items oid (getList items oc) orect tr
          = (n : Int) + 1 := by
        rw [dragOverNewIndex, if_neg (by simp [hk])]
        dsimp only
        rw [hidx, hb, if_pos (by omega)]
        simp
      rw [hnin, jsSlice_take (by omega) (by omega), jsSlice_drop (by omega) (by omega)]
      have ht : ((n : Int) + 1).toNat = n + 1 := by omega
      rw [ht]
      simp

/-- C5 witness: the insertion theorem applied to {A:[1,2], B:[3]} with the
dragged rect's top between the target's midpoint and bottom edge, yielding
B = [1, 3]. -/
theorem over_insertion_index_witness :
    ∃ u, dragOverUpdate itemsMid "1" "3" rectTarget (some rectMid) = some u ∧
      getList u "B" = [JsVal.str "1", JsVal.str "3"] := by
  obtain ⟨u, hu, _, h2⟩ := over_insertion_index itemsMid "1" "3" rectTarget
    (some rectMid) "A" "B" (by decide) (by decide) (by decide)
    (by decide) (by decide)
  refine ⟨u, hu, ?_⟩
  rw [h2 (by decide) 0 (by decide)]
  decide

/-- C5 counterexample: with the matched item's rectangle spanning tops 0-10
and the dragged rect's translated top at 7 — below the midpoint (5) but above
the bottom edge (10) — the claim's midpoint rule computes insertion index
0 + 1 = 1, but the code inserts at index 0: in {A:[1,2], B:[3]} the dragged
item 1 ends at position 0 of B. -/
theorem over_insertion_index_counterexample :
    claimInsertIndex 0 7 rectTarget = 1 ∧
    dragOverUpdate itemsMid "1" "3" rectTarget (some rectMid)
      = some [("A", [JsVal.str "2"]), ("B", [JsVal.str "1", JsVal.str "3"])] ∧
    listIndexOf [JsVal.str "1", JsVal.str "3"] (JsVal.str "1") = 0 := by
  decide

/-- C6: for a collision query whose active identifier is not a container key,
the result is computed from the strict pointer-within candidates when at
least one exists (so the rectangle-intersection input is irrelevant there,
witnessed by invariance under the collision rectangle), otherwise from the
rectangle-intersection candidates; and when neither yields a candidate, the
strategy returns the active item's own identifier if a cross-container move
happened on the immediately preceding event, else the cached last match if
one exists, else no target. -/
theorem collision_strategy_fallback (a : String) (itemList : Items)
    (lastOverId : Option String) (recentlyMoved : Bool) (args : CollisionArgs)
    (hk : hasKey itemList a = false) :
    (pointerWithin args ≠ [] →
      collisionDetectionStrategy (some a) itemList lastOverId recentlyMoved args
        = processIntersections (some a) itemList lastOverId recentlyMoved args
            (pointerWithin args)) ∧
    (pointerWithin args ≠ [] → ∀ cr : Rect,
      collisionDetectionStrategy (some a) itemList lastOverId recentlyMoved
          { args with collisionRect := cr }
        = collisionDetectionStrategy (some a) itemList lastOverId recentlyMoved args) ∧
    (pointerWithin args = [] →
      collisionDetectionStrategy (some a) itemList lastOverId recentlyMoved args
        = processIntersections (some a) itemList lastOverId recentlyMoved args
            (rectIntersection args)) ∧
    (pointerWithin args = [] → rectIntersection args = [] →
      collisionDetectionStrategy (some a) itemList lastOverId recentlyMoved args
        = some ⟨(if recentlyMoved then [a]
            else match lastOverId with | some l => [l] | none => []),
            if recentlyMoved then some a else lastOverId⟩) := by
  have hmain : ∀ args2 : CollisionArgs,
      collisionDetectionStrategy (some a) itemList lastOverId recentlyMoved args2
        = collisionMain (some a) itemList lastOverId recentlyMoved args2 := by
    intro args2
    rw [collisionDetectionStrategy]
    rw [if_neg (by simp [hk])]
  refine ⟨?_, ?_, ?_, ?_⟩
  · intro h
    have hlen : 0 < (pointerWithin args).length := List.length_pos.mpr h
    rw [hmain, collisionMain, if_pos hlen]
  · intro h cr
    have hlen : 0 < (pointerWithin args).length := List.length_pos.mpr h
    rw [hmain, hmain, collisionMain, collisionMain]
    have hpw : pointerWithin { args with collisionRect := cr } = pointerWithin args := rfl
    rw [hpw, if_pos hlen, if_pos hlen]
    rfl
  · intro h
    rw [hmain, collisionMain]
    rw [h]
    rw [if_neg (by simp)]
  · intro h hri
    rw [hmain, collisionMain]
    rw [h, if_neg (by simp), hri]
    cases recentlyMoved <;> rcases lastOverId with _ | l <;> rfl

/-- C6 witness: with no droppable at all, a settled flag and a cached match
"Z", the strategy returns the cached match. -/
theorem collision_strategy_fallback_witness :
    hasKey [("A", [JsVal.str "1"])] "1" = false ∧
    collisionDetectionStrategy (some "1") [("A", [JsVal.str "1"])] (some "Z")
        false ⟨[], (0, 0), ⟨0, 0, 1, 1⟩⟩
      = some ⟨["Z"], some "Z"⟩ := by
  refine ⟨by decide, ?_⟩
  have h := (collision_strategy_fallback "1" [("A", [JsVal.str "1"])] (some "Z")
    false ⟨[], (0, 0), ⟨0, 0, 1, 1⟩⟩ (by decide)).2.2.2 (by decide) (by decide)
  rw [h]
  rfl

/-- C7 (amended): a start event arriving while a session is in progress is not
rejected: the handler silently accepts it, replacing the active id and
overwriting the origin snapshot with the current Registry. -/
theorem start_replaces_session (s : DragState) (i a : String)
    (h : s.activeId = some a) :
    onDragStart s i
      = { s with activeId := some i, clonedItems := some s.itemList } := rfl

/-- C7 witness: the replacement theorem applied to a mid-drag state. -/
theorem start_replaces_session_witness :
    onDragStart startBusy "2"
      = { startBusy with activeId := some "2", clonedItems := some startBusy.itemList } :=
  start_replaces_session startBusy "2" "1" rfl

/-- C7 counterexample: with item 1 active and an older snapshot held, a second
start replaces the snapshot and the active id — the call is neither rejected
nor ignored, and the existing session's origin snapshot does not survive. -/
theorem start_while_dragging_counterexample :
    startBusy.activeId = some "1" ∧
    (onDragStart startBusy "2").clonedItems = some startBusy.itemList ∧
    (onDragStart startBusy "2").clonedItems ≠ startBusy.clonedItems ∧
    (onDragStart startBusy "2").activeId = some "2" := by
  decide

/-- C8: issuing over() twice with an unchanged target (the same resolved over
value; the translated rect of the second event arbitrary) produces no further
Registry mutation after the first call, for every Registry with unique keys
and duplicate-free union. -/
theorem over_idempotent (s : DragState) (a : String) (ov : Option (String × Rect))
    (tr tr2 : Option Rect)
    (hnd : (keysOf s.itemList).Nodup) (hU : (registryUnion s.itemList).Nodup) :
    (onDragOver (onDragOver s a ov tr) a ov tr2).itemList
      = (onDragOver s a ov tr).itemList := by
  rcases ov with _ | ⟨oid, orect⟩
  · rfl
  by_cases hk : hasKey s.itemList a = true
  · rw [onDragOver_of_hasKey hk, onDragOver_of_hasKey hk]
  have hna : hasKey s.itemList a = false := by simpa using hk
  rcases h2 : dragOverUpdate s.itemList a oid orect tr with _ | u
  · rw [onDragOver_none_update hna h2]
    have h3 : dragOverUpdate s.itemList a oid orect tr2 = none := by
      rcases dragOverUpdate_none_cases h2 with hc | hc | ⟨c3, hc3, hc4⟩
      · exact dragOverUpdate_none_oid hc
      · rcases ho : findContainerId s.itemList oid with _ | oc
        · exact dragOverUpdate_none_oid ho
        · exact dragOverUpdate_none_active ho hc
      · exact dragOverUpdate_none_same hc3 hc4 rfl
    rw [onDragOver_none_update hna h3]
  · rw [onDragOver_some_update hna h2]
    obtain ⟨hkeys, hunion, oc, hoc, hfua, hfuoid⟩ :=
      dragOverUpdate_some_spec hnd hU hna h2
    have hkua : hasKey u a = false := by
      by_cases hx : hasKey u a = true
      · exfalso
        have hmem := hasKey_iff_mem.mp hx
        rw [hkeys] at hmem
        exact absurd (hasKey_iff_mem.mpr hmem) (by simp [hna])
      · simpa using hx
    have h3 : dragOverUpdate u a oid orect tr2 = none :=
      dragOverUpdate_none_same hfuoid hfua rfl
    have hs2 : onDragOver { s with itemList := u, recentlyMoved := true } a
        (some (oid, orect)) tr2
        = { s with itemList := u, recentlyMoved := true } :=
      onDragOver_none_update hkua h3
    rw [hs2]

/-- C8 witness: the idempotence theorem applied to the commit scenario's over
event. -/
theorem over_idempotent_witness :
    (onDragOver (onDragOver (onDragStart (initState itemsCommit) "1") "1"
        (some ("4", rectTarget)) (some rectAbove)) "1"
        (some ("4", rectTarget)) (some rectAbove)).itemList
      = (onDragOver (onDragStart (initState itemsCommit) "1") "1"
        (some ("4", rectTarget)) (some rectAbove)).itemList :=
  over_idempotent (onDragStart (initState itemsCommit) "1") "1"
    (some ("4", rectTarget)) (some rectAbove) (some rectAbove)
    (by decide) (by decide)

/-- C9 (amended): both end() and cancel() clear the active id, so at most one
session exists at a time, and cancel() discards the snapshot — but end()
leaves `clonedItems` untouched, so after a successful commit the stale
snapshot is retained in the Idle state until the next start overwrites it or
a cancel clears it. -/
theorem session_snapshot_lifetime (s : DragState) (a : String)
    (ov : Option (String × Rect)) :
    (onDragEnd s a ov).activeId = none ∧
    (onDragEnd s a ov).clonedItems = s.clonedItems ∧
    (onDragCancel s).activeId = none ∧
    (onDragCancel s).clonedItems = none :=
  ⟨rfl, rfl, rfl, rfl⟩

/-- C9 counterexample: after start(1) followed by a successful end(), the
state is Idle (no active id) yet the origin snapshot is still retained,
contradicting the claim that the session record and its snapshot are
destroyed on successful commit. -/
theorem session_snapshot_counterexample :
    (onDragEnd (onDragStart (initState itemsAbandoned) "1") "1" none).activeId
      = none ∧
    (onDragEnd (onDragStart (initState itemsAbandoned) "1") "1" none).clonedItems
      = some itemsAbandoned := by
  decide

/-- C10: an over() event whose active identifier is a container key of the
Registry returns without mutating anything — the handler's early return
leaves the whole state, in particular the item-to-container mapping,
unchanged. -/
theorem container_drag_over_noop (s : DragState) (a : String)
    (ov : Option (String × Rect)) (tr : Option Rect)
    (h : hasKey s.itemList a = true) :
    onDragOver s a ov tr = s :=
  onDragOver_of_hasKey h

/-- C10 witness: dragging the container key "C" over container B leaves the
state untouched. -/
theorem container_drag_over_noop_witness :
    onDragOver (initState itemsShared) "C" (some ("B", rectTarget)) none
      = initState itemsShared :=
  container_drag_over_noop (initState itemsShared) "C"
    (some ("B", rectTarget)) none (by decide)

end Spellclash
